import Mathlib

set_option maxHeartbeats 1000000
set_option maxRecDepth 8000

/-!
A shallow embedding of the NFA matching engine in
src/route_recognizer/nfa.rs, together with theorems about its behaviour.

Characters are modelled as natural-number codepoints; the Rust expression
(char as u64 - 1), whose subtraction wraps in the unsigned 64-bit range,
becomes addition of 2^64 - 1 followed by reduction mod 2^64.
-/

namespace RouteRec

/-- Wrapping value of (char as u64 - 1) from the source: for codepoint 0 the
subtraction underflows to 2^64 - 1. -/
def charVal (c : Nat) : Nat := (c + (2 ^ 64 - 1)) % 2 ^ 64

/-- The u64 maximum value constant used by the source. -/
def u64MAX : Nat := 2 ^ 64 - 1

structure CharSet where
  low_mask : Nat
  high_mask : Nat
  non_ascii : List Nat
deriving Repr, DecidableEq

def CharSet.new : CharSet := { low_mask := 0, high_mask := 0, non_ascii := [] }

def CharSet.insert (s : CharSet) (c : Nat) : CharSet :=
  if charVal c > 127 then
    { s with non_ascii := c :: s.non_ascii }
  else if charVal c > 63 then
    { s with high_mask := s.high_mask ||| (1 <<< (charVal c - 64)) }
  else
    { s with low_mask := s.low_mask ||| (1 <<< charVal c) }

def CharSet.contains (s : CharSet) (c : Nat) : Bool :=
  if charVal c > 127 then
    s.non_ascii.contains c
  else if charVal c > 63 then
    (s.high_mask &&& (1 <<< (charVal c - 64))) != 0
  else
    (s.low_mask &&& (1 <<< charVal c)) != 0

/-- Structural equality of the source (HashSet equality is set equality). -/
def CharSet.eqv (a b : CharSet) : Bool :=
  a.low_mask == b.low_mask && a.high_mask == b.high_mask &&
    a.non_ascii.all (fun c => b.non_ascii.contains c) &&
    b.non_ascii.all (fun c => a.non_ascii.contains c)

inductive CharacterClass where
  | Ascii (high low : Nat) (unicode : Bool)
  | ValidChars (set : CharSet)
  | InvalidChars (set : CharSet)
deriving Repr, DecidableEq

def CharacterClass.any : CharacterClass := .Ascii u64MAX u64MAX true

def CharacterClass.char_to_set (c : Nat) : CharSet := CharSet.new.insert c

def CharacterClass.str_to_set (s : List Nat) : CharSet := s.foldl CharSet.insert CharSet.new

def CharacterClass.valid (s : List Nat) : CharacterClass := .ValidChars (str_to_set s)

def CharacterClass.invalid (s : List Nat) : CharacterClass := .InvalidChars (str_to_set s)

def CharacterClass.valid_char (c : Nat) : CharacterClass :=
  if charVal c > 127 then .ValidChars (char_to_set c)
  else if charVal c > 63 then .Ascii (1 <<< (charVal c - 64)) 0 false
  else .Ascii 0 (1 <<< charVal c) false

def CharacterClass.invalid_char (c : Nat) : CharacterClass :=
  if charVal c > 127 then .InvalidChars (char_to_set c)
  else if charVal c > 63 then .Ascii (u64MAX ^^^ (1 <<< (charVal c - 64))) u64MAX true
  else .Ascii u64MAX (u64MAX ^^^ (1 <<< charVal c)) true

def CharacterClass.matches (cc : CharacterClass) (c : Nat) : Bool :=
  match cc with
  | .ValidChars v => v.contains c
  | .InvalidChars iv => !(iv.contains c)
  | .Ascii high low unicode =>
    if charVal c > 127 then unicode
    else if charVal c > 63 then (high &&& (1 <<< (charVal c - 64))) != 0
    else (low &&& (1 <<< charVal c)) != 0

/-- Whether a class is the packed bitmask variant. -/
def CharacterClass.isAscii : CharacterClass → Bool
  | .Ascii _ _ _ => true
  | _ => false

/-- Equality of classes as the source compares them in NFA.put. -/
def CharacterClass.eqv : CharacterClass → CharacterClass → Bool
  | .Ascii h1 l1 u1, .Ascii h2 l2 u2 => h1 == h2 && l1 == l2 && u1 == u2
  | .ValidChars a, .ValidChars b => a.eqv b
  | .InvalidChars a, .InvalidChars b => a.eqv b
  | _, _ => false

structure Thread where
  state : Nat
  captures : List (Nat × Nat)
  capture_begin : Option Nat
deriving Repr, DecidableEq

def Thread.new : Thread := { state := 0, captures := [], capture_begin := none }

def Thread.start_capture (t : Thread) (start : Nat) : Thread :=
  { t with capture_begin := some start }

def Thread.end_capture (t : Thread) (e : Nat) : Thread :=
  { t with captures := t.captures ++ [(t.capture_begin.getD 0, e)], capture_begin := none }

structure State (T : Type) where
  index : Nat
  chars : CharacterClass
  next_states : List Nat
  acceptance : Bool
  start_capture : Bool
  end_capture : Bool
  metadata : Option T
deriving Repr, DecidableEq

def State.new {T : Type} (index : Nat) (chars : CharacterClass) : State T :=
  { index := index, chars := chars, next_states := [], acceptance := false,
    start_capture := false, end_capture := false, metadata := none }

structure NFA (T : Type) where
  states : List (State T)
  start_capture : List Bool
  end_capture : List Bool
  acceptance : List Bool
deriving Repr, DecidableEq

variable {T : Type}

def NFA.new (T : Type) : NFA T :=
  { states := [State.new 0 CharacterClass.any],
    start_capture := [false], end_capture := [false], acceptance := [false] }

/-- Indexing into the state vector (in the source an out-of-bounds index is a
task failure; the model returns a fresh default state there). -/
def NFA.get (nfa : NFA T) (s : Nat) : State T :=
  nfa.states.getD s (State.new 0 CharacterClass.any)

def fork_thread (t : Thread) (s : State T) : Thread := { t with state := s.index }

def capture (nfa : NFA T) (t : Thread) (current_state next_state pos : Nat) : Thread :=
  let t := if t.capture_begin.isNone && nfa.start_capture.getD next_state false then
      t.start_capture pos
    else t
  if t.capture_begin.isSome && nfa.end_capture.getD current_state false &&
      decide (next_state > current_state) then
    t.end_capture pos
  else t

def processChar (nfa : NFA T) (threads : List Thread) (c : Nat) (pos : Nat) : List Thread :=
  threads.foldl (fun returned t =>
    let current_state := nfa.get t.state
    let counted := current_state.next_states.foldl
      (fun acc index => if (nfa.get index).chars.matches c then (acc.1 + 1, index) else acc)
      (0, 0)
    if counted.1 = 1 then
      returned ++ [capture nfa { t with state := counted.2 } current_state.index counted.2 pos]
    else
      returned ++ current_state.next_states.filterMap (fun index =>
        if (nfa.get index).chars.matches c then
          some (capture nfa (fork_thread t (nfa.get index)) current_state.index index pos)
        else none)) []

/-- The character loop of NFA.process: none models the early processing-failure
return when the thread set empties. -/
def runThreads (nfa : NFA T) (threads : List Thread) (chars : List Nat) (i : Nat) :
    Option (List Thread) :=
  match chars with
  | [] => some threads
  | c :: rest =>
    if (processChar nfa threads c i).isEmpty then none
    else runThreads nfa (processChar nfa threads c i) rest (i + 1)

/-- The thread set alive after consuming a list of characters, with no early
exit (processing an empty set keeps it empty). -/
def survivorsFrom (nfa : NFA T) (threads : List Thread) (i : Nat) : List Nat → List Thread
  | [] => threads
  | c :: rest => survivorsFrom nfa (processChar nfa threads c i) (i + 1) rest

def survivors (nfa : NFA T) (chars : List Nat) : List Thread :=
  survivorsFrom nfa [Thread.new] 0 chars

def maxByGo {I : Type} [LinearOrder I] (f : Nat → I) (best : Thread × I) :
    List Thread → Thread
  | [] => best.1
  | t :: rest =>
    if best.2 < f t.state then maxByGo f (t, f t.state) rest else maxByGo f best rest

/-- Iterator max_by of the source: the fold keeps the current maximum and
replaces it only on a strictly greater key. -/
def maxBy {I : Type} [LinearOrder I] (f : Nat → I) : List Thread → Option Thread
  | [] => none
  | t :: rest => some (maxByGo f (t, f t.state) rest)

/-- UTF-8 width of a codepoint; str.len() in the source is a byte count. -/
def utf8Size (c : Nat) : Nat :=
  if c < 0x80 then 1 else if c < 0x800 then 2 else if c < 0x10000 then 3 else 4

def byteLength (l : List Nat) : Nat := (l.map utf8Size).sum

/-- UTF-8 encoding of one codepoint. -/
def utf8Encode (c : Nat) : List Nat :=
  if c < 0x80 then [c]
  else if c < 0x800 then [0xC0 ||| (c >>> 6), 0x80 ||| (c &&& 0x3F)]
  else if c < 0x10000 then
    [0xE0 ||| (c >>> 12), 0x80 ||| ((c >>> 6) &&& 0x3F), 0x80 ||| (c &&& 0x3F)]
  else
    [0xF0 ||| (c >>> 18), 0x80 ||| ((c >>> 12) &&& 0x3F),
     0x80 ||| ((c >>> 6) &&& 0x3F), 0x80 ||| (c &&& 0x3F)]

def utf8Bytes (l : List Nat) : List Nat := (l.map utf8Encode).flatten

/-- str.slice(begin, end) of the source: a byte-indexed slice of the UTF-8
encoding of the input. -/
def byteSlice (l : List Nat) (b e : Nat) : List Nat := ((utf8Bytes l).take e).drop b

/-- The slice of the input between two character positions, which is what the
spec means by the input between the recorded capture positions. -/
def charSlice (l : List Nat) (b e : Nat) : List Nat := (l.take e).drop b

/-- Thread.extract, with string slicing at the byte level as in the source. -/
def Thread.extractBytes (t : Thread) (source : List Nat) : List (List Nat) :=
  t.captures.map (fun p => byteSlice source p.1 p.2)

inductive ProcessError where
  | Failure (input : List Nat)
  | NoAcceptance
deriving Repr, DecidableEq

def NFA.process {I : Type} [LinearOrder I] (nfa : NFA T) (input : List Nat) (ord : Nat → I) :
    Except ProcessError (Nat × List (Nat × Nat)) :=
  match runThreads nfa [Thread.new] input 0 with
  | none => .error (.Failure input)
  | some threads =>
    let accepted := threads.filter (fun t => (nfa.get t.state).acceptance)
    match maxBy ord accepted with
    | none => .error .NoAcceptance
    | some t =>
      let t := if t.capture_begin.isSome then t.end_capture (byteLength input) else t
      .ok ((nfa.get t.state).index, t.captures)

def NFA.modifyState (nfa : NFA T) (index : Nat) (f : State T → State T) : NFA T :=
  { nfa with states := nfa.states.set index (f (nfa.get index)) }

def NFA.new_state (nfa : NFA T) (chars : CharacterClass) : NFA T × Nat :=
  let index := nfa.states.length
  ({ states := nfa.states ++ [State.new index chars],
     start_capture := nfa.start_capture ++ [false],
     end_capture := nfa.end_capture ++ [false],
     acceptance := nfa.acceptance ++ [false] }, index)

/-- The scan over the existing transitions of a state in NFA.put. -/
def findExisting (nfa : NFA T) : List Nat → CharacterClass → Option Nat
  | [], _ => none
  | idx :: rest, chars =>
    if (nfa.get idx).chars.eqv chars then some idx else findExisting nfa rest chars

def NFA.put (nfa : NFA T) (index : Nat) (chars : CharacterClass) : NFA T × Nat :=
  match findExisting nfa (nfa.get index).next_states chars with
  | some idx => (nfa, idx)
  | none =>
    let r := nfa.new_state chars
    (r.1.modifyState index (fun s => { s with next_states := s.next_states ++ [r.2] }), r.2)

def NFA.put_state (nfa : NFA T) (index child : Nat) : NFA T :=
  nfa.modifyState index (fun s => { s with next_states := s.next_states ++ [child] })

def NFA.set_acceptance (nfa : NFA T) (index : Nat) : NFA T :=
  { nfa.modifyState index (fun s => { s with acceptance := true }) with
    acceptance := nfa.acceptance.set index true }

def NFA.set_start_capture (nfa : NFA T) (index : Nat) : NFA T :=
  { nfa.modifyState index (fun s => { s with start_capture := true }) with
    start_capture := nfa.start_capture.set index true }

def NFA.set_end_capture (nfa : NFA T) (index : Nat) : NFA T :=
  { nfa.modifyState index (fun s => { s with end_capture := true }) with
    end_capture := nfa.end_capture.set index true }

def NFA.set_metadata (nfa : NFA T) (index : Nat) (m : T) : NFA T :=
  nfa.modifyState index (fun s => { s with metadata := some m })

/-- NFAs reachable through the construction API with in-bounds state indices
(an out-of-bounds index is a task failure in the source). -/
inductive Built {T : Type} : NFA T → Prop where
  | new : Built (NFA.new T)
  | put (n : NFA T) (s : Nat) (c : CharacterClass) :
      Built n → s < n.states.length → Built (n.put s c).1
  | put_state (n : NFA T) (s child : Nat) :
      Built n → s < n.states.length → Built (n.put_state s child)
  | acceptance (n : NFA T) (s : Nat) :
      Built n → s < n.states.length → Built (n.set_acceptance s)
  | start_capture (n : NFA T) (s : Nat) :
      Built n → s < n.states.length → Built (n.set_start_capture s)
  | end_capture (n : NFA T) (s : Nat) :
      Built n → s < n.states.length → Built (n.set_end_capture s)
  | metadata (n : NFA T) (s : Nat) (m : T) :
      Built n → s < n.states.length → Built (n.set_metadata s m)

/-- The per-state flags agree with the three flat mirror arrays everywhere. -/
def FlagsMirrored (nfa : NFA T) : Prop :=
  nfa.acceptance.length = nfa.states.length ∧
  nfa.start_capture.length = nfa.states.length ∧
  nfa.end_capture.length = nfa.states.length ∧
  ∀ i, (nfa.get i).acceptance = nfa.acceptance.getD i false ∧
       (nfa.get i).start_capture = nfa.start_capture.getD i false ∧
       (nfa.get i).end_capture = nfa.end_capture.getD i false

/-- A two-state chain accepting the input e-acute then a, with a capture
opened on entering the second state and left open until end of string. -/
def bugNFA : NFA Unit :=
  let r1 := (NFA.new Unit).put 0 (CharacterClass.valid_char 233)
  let r2 := r1.1.put r1.2 (CharacterClass.valid_char 97)
  (r2.1.set_acceptance r2.2).set_start_capture r2.2

/-- The NFA whose start state is accepting, used to instantiate theorems about
processing at concrete inputs. -/
def acceptNFA : NFA Unit := (NFA.new Unit).set_acceptance 0

/-! Helper lemmas about the wrapping codepoint arithmetic and the bitmasks. -/

lemma charVal_zero : charVal 0 = 2 ^ 64 - 1 := by
  unfold charVal
  norm_num

lemma charVal_pos {c : Nat} (h1 : 1 ≤ c) (h2 : c < 2 ^ 64) : charVal c = c - 1 := by
  unfold charVal
  have h : c + (2 ^ 64 - 1) = (c - 1) + 2 ^ 64 := by omega
  rw [h, Nat.add_mod_right]
  exact Nat.mod_eq_of_lt (by omega)

lemma charVal_inj {c d : Nat} (hc : c < 2 ^ 64) (hd : d < 2 ^ 64)
    (h : charVal c = charVal d) : c = d := by
  rcases Nat.eq_zero_or_pos c with h0 | h1 <;> rcases Nat.eq_zero_or_pos d with g0 | g1
  · omega
  · subst h0
    rw [charVal_zero, charVal_pos g1 hd] at h
    omega
  · subst g0
    rw [charVal_zero, charVal_pos h1 hc] at h
    omega
  · rw [charVal_pos h1 hc, charVal_pos g1 hd] at h
    omega

lemma and_two_pow_bne (x v : Nat) : ((x &&& 2 ^ v) != 0) = x.testBit v := by
  rw [Nat.and_two_pow]
  cases h : x.testBit v
  · simp
  · simp [(Nat.two_pow_pos v).ne']

lemma new_contains (c : Nat) : CharSet.new.contains c = false := by
  simp [CharSet.contains, CharSet.new, Nat.zero_and]

lemma insert_contains_self (s : CharSet) (c : Nat) : (s.insert c).contains c = true := by
  unfold CharSet.insert CharSet.contains
  by_cases h1 : charVal c > 127
  · simp [h1]
  · by_cases h2 : charVal c > 63
    · simp [h1, h2, Nat.shiftLeft_eq, one_mul, and_two_pow_bne, Nat.testBit_or,
        Nat.testBit_two_pow_self]
    · simp [h1, h2, Nat.shiftLeft_eq, one_mul, and_two_pow_bne, Nat.testBit_or,
        Nat.testBit_two_pow_self]

lemma insert_contains_other (s : CharSet) {c d : Nat} (hc : c < 2 ^ 64) (hd : d < 2 ^ 64)
    (hne : d ≠ c) : (s.insert c).contains d = s.contains d := by
  have hval : charVal c ≠ charVal d := fun h => hne (charVal_inj hd hc h.symm)
  unfold CharSet.insert CharSet.contains
  by_cases h1 : charVal c > 127
  · by_cases h2 : charVal d > 127
    · simp [h1, h2, hne]
    · by_cases h3 : charVal d > 63 <;> simp [h1, h2, h3]
  · by_cases h2 : charVal c > 63
    · by_cases h3 : charVal d > 127
      · simp [h1, h2, h3]
      · by_cases h4 : charVal d > 63
        · have hidx : charVal c - 64 ≠ charVal d - 64 := by omega
          simp [h1, h2, h3, h4, Nat.shiftLeft_eq, one_mul, and_two_pow_bne,
            Nat.testBit_or, Nat.testBit_two_pow_of_ne hidx]
        · simp [h1, h2, h3, h4]
    · by_cases h3 : charVal d > 127
      · simp [h1, h2, h3]
      · by_cases h4 : charVal d > 63
        · simp [h1, h2, h3, h4]
        · simp [h1, h2, h3, h4, Nat.shiftLeft_eq, one_mul, and_two_pow_bne,
            Nat.testBit_or, Nat.testBit_two_pow_of_ne hval]

/-- Claim C6: insert and contains bucket identically: for every character c
(including codepoint zero) and every CharSet, contains c is true after
insert c, a fresh CharSet contains no character, and inserting c does not
change membership of any other character d. -/
theorem charset_insert_contains_agree (s : CharSet) (c d : Nat)
    (hc : c < 2 ^ 64) (hd : d < 2 ^ 64) :
    (s.insert c).contains c = true ∧
    CharSet.new.contains c = false ∧
    (d ≠ c → (s.insert c).contains d = s.contains d) := by
  exact ⟨insert_contains_self s c, new_contains c,
    fun hne => insert_contains_other s hc hd hne⟩

/-- Witness for C6 at codepoint zero and a distinct bystander character. -/
theorem charset_insert_contains_agree_witness :
    (CharSet.new.insert 0).contains 0 = true ∧
    CharSet.new.contains 0 = false ∧
    (CharSet.new.insert 0).contains 97 = CharSet.new.contains 97 := by
  have h := charset_insert_contains_agree CharSet.new 0 97 (by norm_num) (by norm_num)
  exact ⟨h.1, h.2.1, h.2.2 (by norm_num)⟩

/-- Counterexample to C7 as stated: codepoint 0 lies in the ASCII range 0..127
yet insert stores it in the non-ASCII fallback set and leaves both bitmasks
unchanged, while codepoint 128 lies above 127 yet is stored in the high
bitmask and not in the fallback set. -/
theorem insert_ascii_boundary_cex :
    (CharSet.new.insert 0).non_ascii = [0] ∧
    (CharSet.new.insert 0).low_mask = 0 ∧
    (CharSet.new.insert 0).high_mask = 0 ∧
    (CharSet.new.insert 128).high_mask ≠ 0 ∧
    (CharSet.new.insert 128).non_ascii = [] := by decide

/-- Claim C7 amended: the bitmask buckets hold codepoints 1..64 (low) and
65..128 (high); codepoint 0 and every codepoint above 128 go to the fallback
set, leaving both masks unchanged. -/
theorem insert_bucketing (s : CharSet) (c : Nat) (hc : c < 2 ^ 64) :
    (1 ≤ c ∧ c ≤ 64 → s.insert c = { s with low_mask := s.low_mask ||| 1 <<< (c - 1) }) ∧
    (65 ≤ c ∧ c ≤ 128 → s.insert c = { s with high_mask := s.high_mask ||| 1 <<< (c - 65) }) ∧
    (c = 0 ∨ 128 < c → s.insert c = { s with non_ascii := c :: s.non_ascii }) := by
  refine ⟨fun h => ?_, fun h => ?_, fun h => ?_⟩
  · have hv := charVal_pos h.1 hc
    unfold CharSet.insert
    rw [if_neg (by omega), if_neg (by omega), hv]
  · have hv := charVal_pos (by omega) hc
    unfold CharSet.insert
    rw [if_neg (by omega), if_pos (by omega), hv]
    have : c - 1 - 64 = c - 65 := by omega
    rw [this]
  · rcases h with h0 | hbig
    · subst h0
      unfold CharSet.insert
      rw [if_pos (by rw [charVal_zero]; norm_num)]
    · have hv := charVal_pos (by omega) hc
      unfold CharSet.insert
      rw [if_pos (by omega)]

/-- Witness for the amended C7 at codepoints 1, 65 and 0. -/
theorem insert_bucketing_witness :
    CharSet.new.insert 1 = { CharSet.new with low_mask := CharSet.new.low_mask ||| 1 <<< 0 } ∧
    CharSet.new.insert 65 =
      { CharSet.new with high_mask := CharSet.new.high_mask ||| 1 <<< 0 } ∧
    CharSet.new.insert 0 = { CharSet.new with non_ascii := 0 :: CharSet.new.non_ascii } := by
  refine ⟨(insert_bucketing CharSet.new 1 (by norm_num)).1 (by norm_num), ?_, ?_⟩
  · exact (insert_bucketing CharSet.new 65 (by norm_num)).2.1 (by norm_num)
  · exact (insert_bucketing CharSet.new 0 (by norm_num)).2.2 (Or.inl rfl)

lemma charVal_gt_127_iff {c : Nat} (hc : c < 2 ^ 64) : charVal c > 127 ↔ (c = 0 ∨ 128 < c) := by
  rcases Nat.eq_zero_or_pos c with h0 | h1
  · subst h0
    rw [charVal_zero]
    constructor
    · intro _
      exact Or.inl rfl
    · intro _
      norm_num
  · rw [charVal_pos h1 hc]
    omega

lemma char_to_set_contains {c d : Nat} (hc : c < 2 ^ 64) (hd : d < 2 ^ 64) :
    (CharacterClass.char_to_set c).contains d = decide (d = c) := by
  by_cases h : d = c
  · subst h
    simp [CharacterClass.char_to_set, insert_contains_self]
  · unfold CharacterClass.char_to_set
    rw [insert_contains_other CharSet.new hc hd h, new_contains]
    simp [h]

lemma valid_char_matches {c d : Nat} (hc : c < 2 ^ 64) (hd : d < 2 ^ 64) :
    (CharacterClass.valid_char c).matches d = decide (d = c) := by
  have hinj : charVal c = charVal d → c = d := fun h => charVal_inj hc hd h
  unfold CharacterClass.valid_char
  by_cases h1 : charVal c > 127
  · rw [if_pos h1]
    exact char_to_set_contains hc hd
  · rw [if_neg h1]
    by_cases h2 : charVal c > 63
    · rw [if_pos h2]
      by_cases g1 : charVal d > 127
      · have hne : d ≠ c := fun he => by subst he; omega
        simp [CharacterClass.matches, g1, hne]
      · by_cases g2 : charVal d > 63
        · simp only [CharacterClass.matches, if_neg g1, if_pos g2, Nat.shiftLeft_eq, one_mul,
            and_two_pow_bne, Nat.testBit_two_pow]
          rw [decide_eq_decide]
          constructor
          · intro he
            exact (hinj (by omega)).symm
          · intro he
            subst he
            rfl
        · have hne : d ≠ c := fun he => by subst he; omega
          simp [CharacterClass.matches, g1, g2, Nat.zero_and, hne]
    · rw [if_neg h2]
      by_cases g1 : charVal d > 127
      · have hne : d ≠ c := fun he => by subst he; omega
        simp [CharacterClass.matches, g1, hne]
      · by_cases g2 : charVal d > 63
        · have hne : d ≠ c := fun he => by subst he; omega
          simp [CharacterClass.matches, g1, g2, Nat.zero_and, hne]
        · simp only [CharacterClass.matches, if_neg g1, if_neg g2, Nat.shiftLeft_eq, one_mul,
            and_two_pow_bne, Nat.testBit_two_pow]
          rw [decide_eq_decide]
          constructor
          · intro he
            exact (hinj (by omega)).symm
          · intro he
            subst he
            rfl

lemma testBit_u64MAX {j : Nat} (h : j < 64) : u64MAX.testBit j = true := by
  unfold u64MAX
  rw [Nat.testBit_two_pow_sub_one]
  simpa

lemma invalid_char_matches {c d : Nat} (hc : c < 2 ^ 64) (hd : d < 2 ^ 64) :
    (CharacterClass.invalid_char c).matches d = decide (d ≠ c) := by
  have hinj : charVal c = charVal d → c = d := fun h => charVal_inj hc hd h
  unfold CharacterClass.invalid_char
  by_cases h1 : charVal c > 127
  · rw [if_pos h1]
    have hm : (CharacterClass.InvalidChars (CharacterClass.char_to_set c)).matches d
        = !(CharacterClass.char_to_set c).contains d := rfl
    rw [hm, char_to_set_contains hc hd, decide_not]
  · rw [if_neg h1]
    by_cases h2 : charVal c > 63
    · rw [if_pos h2]
      by_cases g1 : charVal d > 127
      · have hne : d ≠ c := fun he => by subst he; omega
        simp [CharacterClass.matches, g1, hne]
      · by_cases g2 : charVal d > 63
        · have hb : charVal d - 64 < 64 := by omega
          simp only [CharacterClass.matches, if_neg g1, if_pos g2, Nat.shiftLeft_eq, one_mul,
            and_two_pow_bne, Nat.testBit_xor, Nat.testBit_two_pow, testBit_u64MAX hb,
            Bool.true_xor]
          rw [← decide_not, decide_eq_decide]
          constructor
          · intro he hdc
            subst hdc
            exact he rfl
          · intro he hv
            exact he (hinj (by omega)).symm
        · have hne : d ≠ c := fun he => by subst he; omega
          have hb : charVal d < 64 := by omega
          simp [CharacterClass.matches, g1, g2, Nat.shiftLeft_eq, one_mul,
            and_two_pow_bne, testBit_u64MAX hb, hne]
    · rw [if_neg h2]
      by_cases g1 : charVal d > 127
      · have hne : d ≠ c := fun he => by subst he; omega
        simp [CharacterClass.matches, g1, hne]
      · by_cases g2 : charVal d > 63
        · have hne : d ≠ c := fun he => by subst he; omega
          have hb : charVal d - 64 < 64 := by omega
          simp [CharacterClass.matches, g1, g2, Nat.shiftLeft_eq, one_mul,
            and_two_pow_bne, testBit_u64MAX hb, hne]
        · have hb : charVal d < 64 := by omega
          simp only [CharacterClass.matches, if_neg g1, if_neg g2, Nat.shiftLeft_eq, one_mul,
            and_two_pow_bne, Nat.testBit_xor, Nat.testBit_two_pow, testBit_u64MAX hb,
            Bool.true_xor]
          rw [← decide_not, decide_eq_decide]
          constructor
          · intro he hdc
            subst hdc
            exact he rfl
          · intro he hv
            exact he (hinj (by omega)).symm

lemma valid_char_isAscii {c : Nat} (hc : c < 2 ^ 64) :
    (CharacterClass.valid_char c).isAscii = true ↔ 1 ≤ c ∧ c ≤ 128 := by
  by_cases h1 : charVal c > 127
  · have hr := (charVal_gt_127_iff hc).mp h1
    have hA : (CharacterClass.valid_char c).isAscii = false := by
      unfold CharacterClass.valid_char
      rw [if_pos h1]
      rfl
    rw [hA]
    constructor
    · intro h
      exact absurd h (by simp)
    · intro h
      exact ((by omega : False)).elim
  · have hr : ¬(c = 0 ∨ 128 < c) := fun h => h1 ((charVal_gt_127_iff hc).mpr h)
    have hA : (CharacterClass.valid_char c).isAscii = true := by
      unfold CharacterClass.valid_char
      rw [if_neg h1]
      by_cases h2 : charVal c > 63
      · rw [if_pos h2]
        rfl
      · rw [if_neg h2]
        rfl
    rw [hA]
    exact ⟨fun _ => by omega, fun _ => rfl⟩

lemma invalid_char_isAscii {c : Nat} (hc : c < 2 ^ 64) :
    (CharacterClass.invalid_char c).isAscii = true ↔ 1 ≤ c ∧ c ≤ 128 := by
  by_cases h1 : charVal c > 127
  · have hr := (charVal_gt_127_iff hc).mp h1
    have hA : (CharacterClass.invalid_char c).isAscii = false := by
      unfold CharacterClass.invalid_char
      rw [if_pos h1]
      rfl
    rw [hA]
    constructor
    · intro h
      exact absurd h (by simp)
    · intro h
      exact ((by omega : False)).elim
  · have hr : ¬(c = 0 ∨ 128 < c) := fun h => h1 ((charVal_gt_127_iff hc).mpr h)
    have hA : (CharacterClass.invalid_char c).isAscii = true := by
      unfold CharacterClass.invalid_char
      rw [if_neg h1]
      by_cases h2 : charVal c > 63
      · rw [if_pos h2]
        rfl
      · rw [if_neg h2]
        rfl
    rw [hA]
    exact ⟨fun _ => by omega, fun _ => rfl⟩

/-- Counterexample to C8 as stated: the claim says the packed Ascii variant is
produced exactly for ASCII input, but for codepoint 0 (an ASCII character) the
set-backed variant is produced, and for codepoint 128 (not ASCII) the packed
variant is produced. -/
theorem single_char_variant_cex :
    (CharacterClass.valid_char 0).isAscii = false ∧
    (CharacterClass.invalid_char 0).isAscii = false ∧
    (CharacterClass.valid_char 128).isAscii = true ∧
    (CharacterClass.invalid_char 128).isAscii = true := by decide

/-- Claim C8 amended: valid_char c matches exactly c and invalid_char c matches
exactly the characters other than c, agreeing with the set-backed valid and
invalid of the one-character string of c; the packed Ascii variant is produced
exactly for codepoints 1 through 128, the set-backed one for codepoint 0 and
codepoints above 128. -/
theorem single_char_class_spec (c d : Nat) (hc : c < 2 ^ 64) (hd : d < 2 ^ 64) :
    ((CharacterClass.valid_char c).matches d = true ↔ d = c) ∧
    ((CharacterClass.invalid_char c).matches d = true ↔ d ≠ c) ∧
    (CharacterClass.valid [c]).matches d = (CharacterClass.valid_char c).matches d ∧
    (CharacterClass.invalid [c]).matches d = (CharacterClass.invalid_char c).matches d ∧
    ((CharacterClass.valid_char c).isAscii = true ↔ 1 ≤ c ∧ c ≤ 128) ∧
    ((CharacterClass.invalid_char c).isAscii = true ↔ 1 ≤ c ∧ c ≤ 128) := by
  have hset : CharacterClass.str_to_set [c] = CharacterClass.char_to_set c := by
    unfold CharacterClass.str_to_set CharacterClass.char_to_set
    rw [List.foldl_cons, List.foldl_nil]
  have hv : (CharacterClass.valid [c]).matches d =
      (CharacterClass.str_to_set [c]).contains d := rfl
  have hiv : (CharacterClass.invalid [c]).matches d =
      !(CharacterClass.str_to_set [c]).contains d := rfl
  refine ⟨?_, ?_, ?_, ?_, valid_char_isAscii hc, invalid_char_isAscii hc⟩
  · rw [valid_char_matches hc hd]
    simp
  · rw [invalid_char_matches hc hd]
    simp
  · rw [hv, hset, char_to_set_contains hc hd, valid_char_matches hc hd]
  · rw [hiv, hset, char_to_set_contains hc hd, invalid_char_matches hc hd, decide_not]

/-- Witness for the amended C8 at concrete characters. -/
theorem single_char_class_spec_witness :
    (CharacterClass.valid_char 104).matches 104 = true ∧
    (CharacterClass.invalid_char 104).matches 47 = true ∧
    (CharacterClass.valid_char 104).isAscii = true := by
  have h := single_char_class_spec 104 104 (by norm_num) (by norm_num)
  have h2 := single_char_class_spec 104 47 (by norm_num) (by norm_num)
  exact ⟨h.1.mpr rfl, h2.2.1.mpr (by norm_num), h.2.2.2.2.1.mpr (by norm_num)⟩

/-- Claim C2: on a thread advance from state S to state Tn at position pos, a
capture is opened at pos exactly when none is open and Tn is start-marked; a
capture is closed at pos exactly when one is open after the open check, S is
end-marked and Tn is strictly greater than S (so the open check precedes the
close check); and a self-loop advance never closes a capture. -/
theorem capture_rule (nfa : NFA T) (t : Thread) (S Tn pos : Nat) :
    capture nfa t S Tn pos =
      (let opened : Bool := t.capture_begin.isNone && nfa.start_capture.getD Tn false
       let b : Option Nat := if opened then some pos else t.capture_begin
       let closed : Bool := b.isSome && nfa.end_capture.getD S false && decide (S < Tn)
       { state := t.state,
         captures := if closed then t.captures ++ [(b.getD 0, pos)] else t.captures,
         capture_begin := if closed then none else b }) ∧
    (capture nfa t S S pos).captures = t.captures := by
  obtain ⟨ts, tcs, tcb⟩ := t
  constructor
  · simp only [capture]
    rcases tcb with _ | b0 <;>
      rcases hsc : nfa.start_capture.getD Tn false <;>
        rcases hec : nfa.end_capture.getD S false <;>
          rcases hlt : decide (Tn > S) <;>
            simp [hsc, hec, hlt, Thread.start_capture, Thread.end_capture]
  · have hlt : decide (S > S) = false := by simp
    simp only [capture, hlt, Bool.and_false]
    rcases tcb with _ | b0 <;>
      rcases hsc : nfa.start_capture.getD S false <;>
        simp [hsc, Thread.start_capture]

/-- Claim C5: the code records capture opens at character positions but closes
the end-of-string capture at the byte length of the input and slices captures
by bytes: on input e-acute (U+00E9) then a, the winning thread records the
pair (1, 3) whose byte slice splits the two-byte character and differs from
the input between character positions 1 and 3, which is just the letter a. -/
theorem capture_position_unit_mismatch :
    bugNFA.process [233, 97] (id : Nat → Nat) = .ok (2, [(1, 3)]) ∧
    ([233, 97] : List Nat).length = 2 ∧
    byteLength [233, 97] = 3 ∧
    byteSlice [233, 97] 1 3 = [169, 97] ∧
    utf8Bytes (charSlice [233, 97] 1 3) = [97] ∧
    byteSlice [233, 97] 1 3 ≠ utf8Bytes (charSlice [233, 97] 1 3) := by
  refine ⟨rfl, rfl, rfl, rfl, rfl, by decide⟩

/-- Claim C10: on the empty input, process never reports a processing failure;
it succeeds at the start state with no captures when state 0 is accepting and
reports no-acceptance otherwise, and no capture is opened even if the start
state is start-capture-marked. -/
theorem process_empty_input {I : Type} [LinearOrder I] (nfa : NFA T) (ord : Nat → I)
    (hidx : (nfa.get 0).index = 0) :
    nfa.process ([] : List Nat) ord =
      (if (nfa.get 0).acceptance then .ok (0, []) else .error .NoAcceptance) ∧
    ∀ s, nfa.process ([] : List Nat) ord ≠ .error (.Failure s) := by
  have hrun : runThreads nfa [Thread.new] [] 0 = some [Thread.new] := rfl
  constructor
  · by_cases h : (nfa.get 0).acceptance
    · rw [if_pos h]
      unfold NFA.process
      rw [hrun]
      dsimp only
      have hfil : List.filter (fun t => (nfa.get t.state).acceptance) [Thread.new]
          = [Thread.new] := by
        simp [Thread.new, h]
      rw [hfil]
      simp only [maxBy, maxByGo]
      simp [Thread.new, hidx]
    · rw [if_neg h]
      unfold NFA.process
      rw [hrun]
      dsimp only
      have hfil : List.filter (fun t => (nfa.get t.state).acceptance) [Thread.new] = [] := by
        simp [Thread.new, h]
      rw [hfil]
      rfl
  · intro s
    unfold NFA.process
    rw [hrun]
    rcases hm : maxBy ord ([Thread.new].filter (fun t => (nfa.get t.state).acceptance)) with
      _ | t
    · simp [hm]
    · simp [hm]

/-- Witness for C10 at the fresh one-state automaton, whose start state is not
accepting, and at the same automaton with acceptance set on state 0. -/
theorem process_empty_input_witness :
    (NFA.new Unit).process ([] : List Nat) (id : Nat → Nat) = .error .NoAcceptance ∧
    acceptNFA.process ([] : List Nat) (id : Nat → Nat) = .ok (0, []) := by
  constructor
  · have h := process_empty_input (NFA.new Unit) (id : Nat → Nat) rfl
    rw [h.1]
    rfl
  · have h := process_empty_input acceptNFA (id : Nat → Nat) rfl
    rw [h.1]
    rfl

/-! Helper lemmas about list indexing with defaults, and about put. -/

lemma getD_set_self {α : Type} (l : List α) (i : Nat) (a d : α) (h : i < l.length) :
    (l.set i a).getD i d = a := by
  simp [List.getD_eq_getElem?_getD, List.getElem?_set_self h]

lemma getD_set_ne {α : Type} (l : List α) {i j : Nat} (a d : α) (h : i ≠ j) :
    (l.set i a).getD j d = l.getD j d := by
  simp [List.getD_eq_getElem?_getD, List.getElem?_set_ne h]

lemma getD_append_left {α : Type} (l m : List α) {i : Nat} (d : α) (h : i < l.length) :
    (l ++ m).getD i d = l.getD i d := by
  simp [List.getD_eq_getElem?_getD, List.getElem?_append_left h]

lemma getD_append_length {α : Type} (l : List α) (a d : α) :
    (l ++ [a]).getD l.length d = a := by
  simp [List.getD_eq_getElem?_getD, List.getElem?_concat_length]

lemma getD_of_le {α : Type} (l : List α) (d : α) {i : Nat} (h : l.length ≤ i) :
    l.getD i d = d := by
  simp [List.getD_eq_getElem?_getD, List.getElem?_eq_none h]

lemma eqv_refl (cc : CharacterClass) : cc.eqv cc = true := by
  have hall : ∀ l : List Nat, l.all (fun c => l.contains c) = true := by
    intro l
    rw [List.all_eq_true]
    intro x hx
    exact List.elem_iff.mpr hx
  have hset : ∀ s : CharSet, s.eqv s = true := by
    intro s
    simp [CharSet.eqv, hall s.non_ascii]
  cases cc with
  | Ascii h l u => simp [CharacterClass.eqv]
  | ValidChars s => exact hset s
  | InvalidChars s => exact hset s

lemma findExisting_none_iff (nfa : NFA T) (l : List Nat) (c : CharacterClass) :
    findExisting nfa l c = none ↔ ∀ i ∈ l, ((nfa.get i).chars.eqv c) = false := by
  induction l with
  | nil => simp [findExisting]
  | cons a rest ih =>
    by_cases h : ((nfa.get a).chars.eqv c) = true
    · simp [findExisting, h]
    · simp only [findExisting, if_neg h, ih, List.mem_cons]
      constructor
      · intro hall i hi
        rcases hi with hi | hi
        · subst hi
          exact Bool.not_eq_true _ ▸ h
        · exact hall i hi
      · intro hall i hi
        exact hall i (Or.inr hi)

lemma findExisting_some_spec (nfa : NFA T) (l : List Nat) (c : CharacterClass) (idx : Nat)
    (h : findExisting nfa l c = some idx) :
    idx ∈ l ∧ ((nfa.get idx).chars.eqv c) = true := by
  induction l with
  | nil => simp [findExisting] at h
  | cons a rest ih =>
    by_cases ha : ((nfa.get a).chars.eqv c) = true
    · rw [findExisting, if_pos ha] at h
      cases h
      exact ⟨List.mem_cons_self _ _, ha⟩
    · rw [findExisting, if_neg ha] at h
      have := ih h
      exact ⟨List.mem_cons_of_mem a this.1, this.2⟩

lemma findExisting_congr {nfa nfa' : NFA T} (l : List Nat) (c : CharacterClass)
    (h : ∀ i ∈ l, (nfa'.get i).chars = (nfa.get i).chars) :
    findExisting nfa' l c = findExisting nfa l c := by
  induction l with
  | nil => rfl
  | cons a rest ih =>
    have ha := h a (List.mem_cons_self a rest)
    rw [findExisting, findExisting, ha, ih fun i hi => h i (List.mem_cons_of_mem a hi)]

lemma findExisting_append_none (nfa : NFA T) (l1 l2 : List Nat) (c : CharacterClass)
    (h : findExisting nfa l1 c = none) :
    findExisting nfa (l1 ++ l2) c = findExisting nfa l2 c := by
  induction l1 with
  | nil => rfl
  | cons a rest ih =>
    by_cases ha : ((nfa.get a).chars.eqv c) = true
    · rw [findExisting, if_pos ha] at h
      cases h
    · rw [findExisting, if_neg ha] at h
      rw [List.cons_append, findExisting, if_neg ha]
      exact ih h

lemma get_modifyState_self (nfa : NFA T) (i : Nat) (f : State T → State T)
    (h : i < nfa.states.length) : (nfa.modifyState i f).get i = f (nfa.get i) := by
  unfold NFA.modifyState NFA.get
  exact getD_set_self _ _ _ _ h

lemma get_modifyState_ne (nfa : NFA T) {i j : Nat} (f : State T → State T) (h : i ≠ j) :
    (nfa.modifyState i f).get j = nfa.get j := by
  unfold NFA.modifyState NFA.get
  exact getD_set_ne _ _ _ h

lemma get_new_state_lt (nfa : NFA T) (c : CharacterClass) {i : Nat}
    (h : i < nfa.states.length) : (nfa.new_state c).1.get i = nfa.get i := by
  unfold NFA.new_state NFA.get
  exact getD_append_left _ _ _ h

lemma get_new_state_len (nfa : NFA T) (c : CharacterClass) :
    (nfa.new_state c).1.get nfa.states.length = State.new nfa.states.length c := by
  unfold NFA.new_state NFA.get
  exact getD_append_length _ _ _

/-- The two halves of put: reuse when an equal class exists, fresh state else. -/
lemma put_of_found {nfa : NFA T} {s : Nat} {c : CharacterClass} {idx : Nat}
    (hfe : findExisting nfa (nfa.get s).next_states c = some idx) :
    nfa.put s c = (nfa, idx) := by
  unfold NFA.put
  rw [hfe]

lemma put_of_none {nfa : NFA T} {s : Nat} {c : CharacterClass}
    (hfe : findExisting nfa (nfa.get s).next_states c = none) :
    nfa.put s c =
      ((nfa.new_state c).1.modifyState s
        (fun st => { st with next_states := st.next_states ++ [(nfa.new_state c).2] }),
       (nfa.new_state c).2) := by
  unfold NFA.put
  rw [hfe]

lemma modifyState_length (nfa : NFA T) (i : Nat) (f : State T → State T) :
    (nfa.modifyState i f).states.length = nfa.states.length := by
  unfold NFA.modifyState
  simp

lemma new_state_length (nfa : NFA T) (c : CharacterClass) :
    (nfa.new_state c).1.states.length = nfa.states.length + 1 := by
  unfold NFA.new_state
  simp

lemma findExisting_singleton (nfa : NFA T) (i : Nat) (c : CharacterClass)
    (h : ((nfa.get i).chars.eqv c) = true) : findExisting nfa [i] c = some i := by
  show (if ((nfa.get i).chars.eqv c) = true then some i else findExisting nfa [] c) = some i
  rw [if_pos h]

/-- Claim C4: put with a class equal to one already reachable from s returns
the existing target and changes nothing; otherwise it allocates exactly one
state at index equal to the previous state count and links it from s; hence a
second identical put returns the same index and creates nothing. -/
theorem put_spec (nfa : NFA T) (s : Nat) (c : CharacterClass)
    (hs : s < nfa.states.length)
    (hwf : ∀ i ∈ (nfa.get s).next_states, i < nfa.states.length) :
    (∀ idx, findExisting nfa (nfa.get s).next_states c = some idx →
      nfa.put s c = (nfa, idx) ∧ idx ∈ (nfa.get s).next_states ∧
      ((nfa.get idx).chars.eqv c) = true) ∧
    (findExisting nfa (nfa.get s).next_states c = none →
      (nfa.put s c).2 = nfa.states.length ∧
      (nfa.put s c).1.states.length = nfa.states.length + 1 ∧
      ((nfa.put s c).1.get (nfa.put s c).2).chars = c ∧
      (nfa.put s c).2 ∈ ((nfa.put s c).1.get s).next_states) ∧
    (nfa.put s c).1.put s c = ((nfa.put s c).1, (nfa.put s c).2) := by
  have hsm : s < (nfa.new_state c).1.states.length := by
    rw [new_state_length]
    omega
  refine ⟨?_, ?_, ?_⟩
  · intro idx hfe
    have hspec := findExisting_some_spec nfa _ c idx hfe
    exact ⟨put_of_found hfe, hspec.1, hspec.2⟩
  · intro hfe
    have h2 : (nfa.put s c).2 = nfa.states.length := by
      rw [put_of_none hfe]
      rfl
    have hlen : (nfa.put s c).1.states.length = nfa.states.length + 1 := by
      rw [put_of_none hfe]
      dsimp only
      rw [modifyState_length, new_state_length]
    have hchars : ((nfa.put s c).1.get (nfa.put s c).2).chars = c := by
      rw [put_of_none hfe]
      dsimp only
      have hne : s ≠ (nfa.new_state c).2 := Nat.ne_of_lt hs
      rw [get_modifyState_ne _ _ hne]
      show ((nfa.new_state c).1.get nfa.states.length).chars = c
      rw [get_new_state_len]
      rfl
    have hmem : (nfa.put s c).2 ∈ ((nfa.put s c).1.get s).next_states := by
      rw [put_of_none hfe]
      dsimp only
      rw [get_modifyState_self _ _ _ hsm]
      simp
    exact ⟨h2, hlen, hchars, hmem⟩
  · rcases hfe : findExisting nfa (nfa.get s).next_states c with _ | idx
    · have hgs : ((nfa.put s c).1.get s).next_states
          = (nfa.get s).next_states ++ [(nfa.put s c).2] := by
        rw [put_of_none hfe]
        dsimp only
        rw [get_modifyState_self _ _ _ hsm]
        dsimp only
        rw [get_new_state_lt nfa c hs]
      have hchars : ∀ i ∈ (nfa.get s).next_states,
          ((nfa.put s c).1.get i).chars = (nfa.get i).chars := by
        intro i hi
        by_cases hisi : s = i
        · subst hisi
          rw [put_of_none hfe]
          dsimp only
          rw [get_modifyState_self _ _ _ hsm]
          dsimp only
          rw [get_new_state_lt nfa c hs]
        · rw [put_of_none hfe]
          dsimp only
          rw [get_modifyState_ne _ _ hisi, get_new_state_lt nfa c (hwf i hi)]
      have hfe1 : findExisting (nfa.put s c).1 (nfa.get s).next_states c = none := by
        rw [findExisting_congr _ c hchars, hfe]
      have hlenchars : ((nfa.put s c).1.get (nfa.put s c).2).chars = c := by
        rw [put_of_none hfe]
        dsimp only
        have hne : s ≠ (nfa.new_state c).2 := Nat.ne_of_lt hs
        rw [get_modifyState_ne _ _ hne]
        show ((nfa.new_state c).1.get nfa.states.length).chars = c
        rw [get_new_state_len]
        rfl
      have hfe2 : findExisting (nfa.put s c).1 ((nfa.put s c).1.get s).next_states c
          = some (nfa.put s c).2 := by
        rw [hgs, findExisting_append_none _ _ _ _ hfe1,
          findExisting_singleton _ _ _ (by rw [hlenchars]; exact eqv_refl c)]
      exact put_of_found hfe2
    · rw [put_of_found hfe]
      dsimp only
      exact put_of_found hfe

/-- Witness for C4: putting the same single-character class twice from the
start state of a fresh automaton returns index 1 both times and leaves the
automaton of the first call unchanged. -/
theorem put_spec_witness :
    (((NFA.new Unit).put 0 (CharacterClass.valid_char 104)).1.put 0
        (CharacterClass.valid_char 104))
      = (((NFA.new Unit).put 0 (CharacterClass.valid_char 104)).1,
         ((NFA.new Unit).put 0 (CharacterClass.valid_char 104)).2) ∧
    ((NFA.new Unit).put 0 (CharacterClass.valid_char 104)).2 = 1 := by
  refine ⟨?_, rfl⟩
  exact (put_spec (NFA.new Unit) 0 (CharacterClass.valid_char 104) (by decide)
    (by intro i hi; simp [NFA.get, NFA.new, State.new] at hi)).2.2

/-! Preservation of the flag-mirror invariant by every construction step. -/

lemma mirror_new : FlagsMirrored (NFA.new T) := by
  refine ⟨rfl, rfl, rfl, ?_⟩
  intro i
  rcases i with _ | j <;> simp [NFA.get, NFA.new, State.new]

lemma getD_of_flagless_modify (nfa : NFA T) (i : Nat) (f : State T → State T) (j : Nat) :
    (nfa.modifyState i f).get j = f (nfa.get j) ∨ (nfa.modifyState i f).get j = nfa.get j := by
  by_cases hij : i = j
  · subst hij
    by_cases hlt : i < nfa.states.length
    · exact Or.inl (get_modifyState_self nfa i f hlt)
    · right
      unfold NFA.modifyState NFA.get
      rw [List.set_eq_of_length_le (by omega)]
  · exact Or.inr (get_modifyState_ne nfa f hij)

lemma mirror_modify_flagless {nfa : NFA T} (i : Nat) (f : State T → State T)
    (hf : ∀ st : State T, (f st).acceptance = st.acceptance ∧
        (f st).start_capture = st.start_capture ∧ (f st).end_capture = st.end_capture)
    (h : FlagsMirrored nfa) : FlagsMirrored (nfa.modifyState i f) := by
  obtain ⟨ha, hsc, hec, hflags⟩ := h
  refine ⟨by rw [modifyState_length]; exact ha, by rw [modifyState_length]; exact hsc,
    by rw [modifyState_length]; exact hec, ?_⟩
  intro j
  have hm : (nfa.modifyState i f).acceptance = nfa.acceptance ∧
      (nfa.modifyState i f).start_capture = nfa.start_capture ∧
      (nfa.modifyState i f).end_capture = nfa.end_capture := ⟨rfl, rfl, rfl⟩
  rcases getD_of_flagless_modify nfa i f j with hg | hg <;>
    rw [hg, hm.1, hm.2.1, hm.2.2]
  · exact ⟨(hf _).1.trans (hflags j).1, (hf _).2.1.trans (hflags j).2.1,
      (hf _).2.2.trans (hflags j).2.2⟩
  · exact hflags j

lemma mirror_new_state {nfa : NFA T} (c : CharacterClass) (h : FlagsMirrored nfa) :
    FlagsMirrored (nfa.new_state c).1 := by
  obtain ⟨ha, hsc, hec, hflags⟩ := h
  have hs : (nfa.new_state c).1.states = nfa.states ++ [State.new nfa.states.length c] := rfl
  have hma : (nfa.new_state c).1.acceptance = nfa.acceptance ++ [false] := rfl
  have hmsc : (nfa.new_state c).1.start_capture = nfa.start_capture ++ [false] := rfl
  have hmec : (nfa.new_state c).1.end_capture = nfa.end_capture ++ [false] := rfl
  refine ⟨by rw [hs, hma]; simp [ha], by rw [hs, hmsc]; simp [hsc],
    by rw [hs, hmec]; simp [hec], ?_⟩
  intro j
  rcases Nat.lt_trichotomy j nfa.states.length with hj | hj | hj
  · have hgs : (nfa.new_state c).1.get j = nfa.get j := get_new_state_lt nfa c hj
    rw [hgs, hma, hmsc, hmec,
      getD_append_left _ _ _ (by omega : j < nfa.acceptance.length),
      getD_append_left _ _ _ (by omega : j < nfa.start_capture.length),
      getD_append_left _ _ _ (by omega : j < nfa.end_capture.length)]
    exact hflags j
  · have hgs : (nfa.new_state c).1.get j = State.new nfa.states.length c := by
      rw [hj]
      exact get_new_state_len nfa c
    rw [hgs, hma, hmsc, hmec]
    have hja : j = nfa.acceptance.length := by omega
    have hjs : j = nfa.start_capture.length := by omega
    have hje : j = nfa.end_capture.length := by omega
    refine ⟨?_, ?_, ?_⟩
    · rw [hja, getD_append_length]
      rfl
    · rw [hjs, getD_append_length]
      rfl
    · rw [hje, getD_append_length]
      rfl
  · have hgs : (nfa.new_state c).1.get j = State.new 0 CharacterClass.any := by
      unfold NFA.get
      rw [hs]
      exact getD_of_le _ _ (by simp; omega)
    rw [hgs, hma, hmsc, hmec,
      getD_of_le _ _ (by simp; omega), getD_of_le _ _ (by simp; omega),
      getD_of_le _ _ (by simp; omega)]
    exact ⟨rfl, rfl, rfl⟩

lemma mirror_set_acceptance {nfa : NFA T} (i : Nat) (h : FlagsMirrored nfa) :
    FlagsMirrored (nfa.set_acceptance i) := by
  obtain ⟨ha, hsc, hec, hflags⟩ := h
  have hs : (nfa.set_acceptance i).states
      = nfa.states.set i { nfa.get i with acceptance := true } := rfl
  have hma : (nfa.set_acceptance i).acceptance = nfa.acceptance.set i true := rfl
  have hmsc : (nfa.set_acceptance i).start_capture = nfa.start_capture := rfl
  have hmec : (nfa.set_acceptance i).end_capture = nfa.end_capture := rfl
  refine ⟨by rw [hs, hma]; simp [ha], by rw [hs, hmsc]; simp [hsc],
    by rw [hs, hmec]; simp [hec], ?_⟩
  intro j
  rw [hma, hmsc, hmec]
  by_cases hij : i = j
  · subst hij
    by_cases hlt : i < nfa.states.length
    · have hg : (nfa.set_acceptance i).get i = { nfa.get i with acceptance := true } := by
        unfold NFA.get
        rw [hs]
        exact getD_set_self _ _ _ _ hlt
      rw [hg, getD_set_self _ _ _ _ (by omega : i < nfa.acceptance.length)]
      exact ⟨rfl, (hflags i).2.1, (hflags i).2.2⟩
    · have hg : (nfa.set_acceptance i).get i = nfa.get i := by
        unfold NFA.get
        rw [hs, List.set_eq_of_length_le (by omega)]
      rw [hg, List.set_eq_of_length_le (by omega : nfa.acceptance.length ≤ i)]
      exact hflags i
  · have hg : (nfa.set_acceptance i).get j = nfa.get j := by
      unfold NFA.get
      rw [hs]
      exact getD_set_ne _ _ _ hij
    rw [hg, getD_set_ne _ _ _ hij]
    exact hflags j

lemma mirror_set_start_capture {nfa : NFA T} (i : Nat) (h : FlagsMirrored nfa) :
    FlagsMirrored (nfa.set_start_capture i) := by
  obtain ⟨ha, hsc, hec, hflags⟩ := h
  have hs : (nfa.set_start_capture i).states
      = nfa.states.set i { nfa.get i with start_capture := true } := rfl
  have hma : (nfa.set_start_capture i).acceptance = nfa.acceptance := rfl
  have hmsc : (nfa.set_start_capture i).start_capture = nfa.start_capture.set i true := rfl
  have hmec : (nfa.set_start_capture i).end_capture = nfa.end_capture := rfl
  refine ⟨by rw [hs, hma]; simp [ha], by rw [hs, hmsc]; simp [hsc],
    by rw [hs, hmec]; simp [hec], ?_⟩
  intro j
  rw [hma, hmsc, hmec]
  by_cases hij : i = j
  · subst hij
    by_cases hlt : i < nfa.states.length
    · have hg : (nfa.set_start_capture i).get i
          = { nfa.get i with start_capture := true } := by
        unfold NFA.get
        rw [hs]
        exact getD_set_self _ _ _ _ hlt
      rw [hg, getD_set_self _ _ _ _ (by omega : i < nfa.start_capture.length)]
      exact ⟨(hflags i).1, rfl, (hflags i).2.2⟩
    · have hg : (nfa.set_start_capture i).get i = nfa.get i := by
        unfold NFA.get
        rw [hs, List.set_eq_of_length_le (by omega)]
      rw [hg, List.set_eq_of_length_le (by omega : nfa.start_capture.length ≤ i)]
      exact hflags i
  · have hg : (nfa.set_start_capture i).get j = nfa.get j := by
      unfold NFA.get
      rw [hs]
      exact getD_set_ne _ _ _ hij
    rw [hg, getD_set_ne _ _ _ hij]
    exact hflags j

lemma mirror_set_end_capture {nfa : NFA T} (i : Nat) (h : FlagsMirrored nfa) :
    FlagsMirrored (nfa.set_end_capture i) := by
  obtain ⟨ha, hsc, hec, hflags⟩ := h
  have hs : (nfa.set_end_capture i).states
      = nfa.states.set i { nfa.get i with end_capture := true } := rfl
  have hma : (nfa.set_end_capture i).acceptance = nfa.acceptance := rfl
  have hmsc : (nfa.set_end_capture i).start_capture = nfa.start_capture := rfl
  have hmec : (nfa.set_end_capture i).end_capture = nfa.end_capture.set i true := rfl
  refine ⟨by rw [hs, hma]; simp [ha], by rw [hs, hmsc]; simp [hsc],
    by rw [hs, hmec]; simp [hec], ?_⟩
  intro j
  rw [hma, hmsc, hmec]
  by_cases hij : i = j
  · subst hij
    by_cases hlt : i < nfa.states.length
    · have hg : (nfa.set_end_capture i).get i = { nfa.get i with end_capture := true } := by
        unfold NFA.get
        rw [hs]
        exact getD_set_self _ _ _ _ hlt
      rw [hg, getD_set_self _ _ _ _ (by omega : i < nfa.end_capture.length)]
      exact ⟨(hflags i).1, (hflags i).2.1, rfl⟩
    · have hg : (nfa.set_end_capture i).get i = nfa.get i := by
        unfold NFA.get
        rw [hs, List.set_eq_of_length_le (by omega)]
      rw [hg, List.set_eq_of_length_le (by omega : nfa.end_capture.length ≤ i)]
      exact hflags i
  · have hg : (nfa.set_end_capture i).get j = nfa.get j := by
      unfold NFA.get
      rw [hs]
      exact getD_set_ne _ _ _ hij
    rw [hg, getD_set_ne _ _ _ hij]
    exact hflags j

/-- Claim C9: every NFA reachable through the construction API keeps each
state's acceptance, start_capture and end_capture flags equal to the entries
of the three flat mirror arrays at the state's index (and the arrays have the
same length as the state vector). -/
theorem flag_mirror_lockstep (nfa : NFA T) (h : Built nfa) : FlagsMirrored nfa := by
  induction h with
  | new => exact mirror_new
  | put n s c hb hs ih =>
    rcases hfe : findExisting n (n.get s).next_states c with _ | idx
    · rw [put_of_none hfe]
      dsimp only
      exact mirror_modify_flagless _ _ (fun st => ⟨rfl, rfl, rfl⟩) (mirror_new_state c ih)
    · rw [put_of_found hfe]
      exact ih
  | put_state n s child hb hs ih =>
    exact mirror_modify_flagless _ _ (fun st => ⟨rfl, rfl, rfl⟩) ih
  | acceptance n s hb hs ih => exact mirror_set_acceptance _ ih
  | start_capture n s hb hs ih => exact mirror_set_start_capture _ ih
  | end_capture n s hb hs ih => exact mirror_set_end_capture _ ih
  | metadata n s m hb hs ih =>
    exact mirror_modify_flagless _ _ (fun st => ⟨rfl, rfl, rfl⟩) ih

/-- Witness for C9 on a concretely built automaton. -/
theorem flag_mirror_lockstep_witness : FlagsMirrored acceptNFA :=
  flag_mirror_lockstep acceptNFA
    (Built.acceptance (NFA.new Unit) 0 Built.new (by decide))

/-! The processing-failure characterization and the acceptance selection. -/

lemma runThreads_none_iff (nfa : NFA T) (threads : List Thread) (cs : List Nat) (i : Nat)
    (hne : threads ≠ []) :
    runThreads nfa threads cs i = none ↔
      ∃ k < cs.length, survivorsFrom nfa threads i (cs.take (k + 1)) = [] := by
  induction cs generalizing threads i with
  | nil => simp [runThreads, hne]
  | cons c rest ih =>
    have hrw : runThreads nfa threads (c :: rest) i =
        if (processChar nfa threads c i).isEmpty then none
        else runThreads nfa (processChar nfa threads c i) rest (i + 1) := rfl
    have hsv : ∀ l, survivorsFrom nfa threads i (c :: l)
        = survivorsFrom nfa (processChar nfa threads c i) (i + 1) l := fun l => rfl
    by_cases hempty : (processChar nfa threads c i).isEmpty
    · rw [hrw, if_pos hempty]
      constructor
      · intro _
        refine ⟨0, by simp, ?_⟩
        rw [show (c :: rest).take 1 = [c] from rfl, hsv]
        exact List.isEmpty_iff.mp hempty
      · intro _
        rfl
    · rw [hrw, if_neg hempty]
      have hpc_ne : processChar nfa threads c i ≠ [] :=
        fun hnil => hempty (by rw [hnil]; rfl)
      rw [ih (processChar nfa threads c i) (i + 1) hpc_ne]
      constructor
      · rintro ⟨k, hk, hsurv⟩
        refine ⟨k + 1, by simpa using hk, ?_⟩
        rw [List.take_succ_cons, hsv]
        exact hsurv
      · rintro ⟨k, hk, hsurv⟩
        cases k with
        | zero =>
          exfalso
          rw [show (c :: rest).take 1 = [c] from rfl, hsv] at hsurv
          exact hpc_ne hsurv
        | succ k =>
          refine ⟨k, by simpa using hk, ?_⟩
          rw [List.take_succ_cons, hsv] at hsurv
          exact hsurv

/-- Claim C3: process returns the processing-failure error, carrying the whole
input, exactly when the live thread set empties after some prefix of the
input; the failing prefix alone determines the failure and the remaining
characters are never consulted. -/
theorem process_failure_iff {I : Type} [LinearOrder I] (nfa : NFA T) (input : List Nat)
    (ord : Nat → I) :
    nfa.process input ord = .error (.Failure input) ↔
      ∃ k < input.length, survivors nfa (input.take (k + 1)) = [] := by
  have hiff := runThreads_none_iff nfa [Thread.new] input 0 (by simp)
  have hsurv : ∀ l, survivors nfa l = survivorsFrom nfa [Thread.new] 0 l := fun l => rfl
  constructor
  · intro h
    simp only [hsurv]
    rw [← hiff]
    by_contra hne
    rcases Option.ne_none_iff_exists'.mp hne with ⟨ts, hts⟩
    unfold NFA.process at h
    rw [hts] at h
    dsimp only at h
    rcases hmax : maxBy ord (List.filter (fun t => (nfa.get t.state).acceptance) ts) with
      _ | t <;> rw [hmax] at h <;> simp at h
  · intro h
    simp only [hsurv] at h
    unfold NFA.process
    rw [hiff.mpr h]

lemma maxByGo_spec {I : Type} [LinearOrder I] (f : Nat → I) (l : List Thread) :
    ∀ b : Thread × I, b.2 = f b.1.state →
      (maxByGo f b l = b.1 ∨ maxByGo f b l ∈ l) ∧
      f b.1.state ≤ f (maxByGo f b l).state ∧
      ∀ u ∈ l, f u.state ≤ f (maxByGo f b l).state := by
  induction l with
  | nil =>
    intro b hb
    exact ⟨Or.inl rfl, le_refl _, by simp⟩
  | cons t rest ih =>
    intro b hb
    have hrw : maxByGo f b (t :: rest) =
        if b.2 < f t.state then maxByGo f (t, f t.state) rest else maxByGo f b rest := rfl
    by_cases hlt : b.2 < f t.state
    · rw [hrw, if_pos hlt]
      obtain ⟨hmem, hle, hall⟩ := ih (t, f t.state) rfl
      refine ⟨?_, ?_, ?_⟩
      · rcases hmem with h | h
        · exact Or.inr (by rw [h]; exact List.mem_cons_self _ _)
        · exact Or.inr (List.mem_cons_of_mem _ h)
      · calc f b.1.state = b.2 := hb.symm
          _ ≤ f t.state := le_of_lt hlt
          _ ≤ _ := hle
      · intro u hu
        rcases List.mem_cons.mp hu with h | h
        · rw [h]
          exact hle
        · exact hall u h
    · rw [hrw, if_neg hlt]
      obtain ⟨hmem, hle, hall⟩ := ih b hb
      refine ⟨?_, hle, ?_⟩
      · rcases hmem with h | h
        · exact Or.inl h
        · exact Or.inr (List.mem_cons_of_mem _ h)
      · intro u hu
        rcases List.mem_cons.mp hu with h | h
        · rw [h]
          calc f t.state ≤ b.2 := le_of_not_lt hlt
            _ = f b.1.state := hb
            _ ≤ _ := hle
        · exact hall u h

lemma maxBy_some_spec {I : Type} [LinearOrder I] (f : Nat → I) (l : List Thread)
    (t : Thread) (h : maxBy f l = some t) :
    t ∈ l ∧ ∀ u ∈ l, f u.state ≤ f t.state := by
  cases l with
  | nil => exact absurd h (by simp [maxBy])
  | cons a rest =>
    have hrw : maxBy f (a :: rest) = some (maxByGo f (a, f a.state) rest) := rfl
    rw [hrw] at h
    obtain ⟨hmem, hle, hall⟩ := maxByGo_spec f rest (a, f a.state) rfl
    cases h
    refine ⟨?_, ?_⟩
    · rcases hmem with h | h
      · rw [h]
        exact List.mem_cons_self _ _
      · exact List.mem_cons_of_mem _ h
    · intro u hu
      rcases List.mem_cons.mp hu with h | h
      · rw [h]
        exact hle
      · exact hall u h

/-- Claim C1: once the whole input is consumed leaving threads ts, process
returns the no-acceptance error when no surviving thread sits on an accepting
state, and otherwise returns the state index of a surviving accepting thread
whose state maximizes the caller-supplied order over the accepting
survivors. -/
theorem process_acceptance_policy {I : Type} [LinearOrder I] (nfa : NFA T)
    (input : List Nat) (ord : Nat → I) (ts : List Thread)
    (hrun : runThreads nfa [Thread.new] input 0 = some ts)
    (hix : ∀ i, i < nfa.states.length → (nfa.get i).index = i)
    (hts : ∀ t ∈ ts, t.state < nfa.states.length) :
    (List.filter (fun t => (nfa.get t.state).acceptance) ts = [] →
      nfa.process input ord = .error .NoAcceptance) ∧
    (List.filter (fun t => (nfa.get t.state).acceptance) ts ≠ [] →
      ∃ t ∈ List.filter (fun u => (nfa.get u.state).acceptance) ts,
        (∀ u ∈ List.filter (fun v => (nfa.get v.state).acceptance) ts,
          ord u.state ≤ ord t.state) ∧
        ∃ caps, nfa.process input ord = .ok (t.state, caps)) := by
  constructor
  · intro hfil
    unfold NFA.process
    rw [hrun]
    dsimp only
    rw [hfil]
    rfl
  · intro hfil
    unfold NFA.process
    rw [hrun]
    dsimp only
    rcases hmax : maxBy ord (List.filter (fun t => (nfa.get t.state).acceptance) ts) with
      _ | t
    · rcases hfl : List.filter (fun t => (nfa.get t.state).acceptance) ts with _ | ⟨a, r⟩
      · exact absurd hfl hfil
      · rw [hfl] at hmax
        exact absurd hmax (by simp [maxBy])
    · dsimp only
      obtain ⟨hmem, hall⟩ := maxBy_some_spec ord _ t hmax
      have hstate : t.state < nfa.states.length := hts t (List.mem_of_mem_filter hmem)
      refine ⟨t, hmem, hall, ?_⟩
      by_cases hcb : t.capture_begin.isSome = true
      · rw [if_pos hcb]
        refine ⟨(t.end_capture (byteLength input)).captures, ?_⟩
        have hst : (t.end_capture (byteLength input)).state = t.state := rfl
        rw [hst, hix t.state hstate]
      · rw [if_neg hcb]
        exact ⟨t.captures, by rw [hix t.state hstate]⟩

/-- Witness for C1 on the accepting one-state automaton and the empty input:
the sole surviving thread sits on the accepting start state and wins. -/
theorem process_acceptance_policy_witness :
    ∃ t ∈ List.filter (fun u => (acceptNFA.get u.state).acceptance) [Thread.new],
      (∀ u ∈ List.filter (fun v => (acceptNFA.get v.state).acceptance) [Thread.new],
        (id u.state : Nat) ≤ id t.state) ∧
      ∃ caps, acceptNFA.process ([] : List Nat) (id : Nat → Nat) = .ok (t.state, caps) := by
  have hix : ∀ i, i < acceptNFA.states.length → (acceptNFA.get i).index = i := by
    intro i hi
    have hlen : acceptNFA.states.length = 1 := rfl
    have h0 : i = 0 := by omega
    rw [h0]
    rfl
  have hts : ∀ t ∈ [Thread.new], t.state < acceptNFA.states.length := by
    intro t ht
    have h0 : t = Thread.new := by simpa using ht
    rw [h0]
    decide
  exact (process_acceptance_policy acceptNFA [] (id : Nat → Nat) [Thread.new] rfl hix
    hts).2 (by decide)

end RouteRec
